import Mathlib

/-!
Verification of the Seasons & Stars Athas calendar engine
(`scripts/main.js`).  The JavaScript source is shallowly embedded:
years, day counts and absolute day indices are `Int` (JS numbers used
integrally), moon-cycle quantities are `ℚ` (JS doubles used through
exact rational operations), fallible lookups are `Option`.
-/

namespace SSAthas

/-- Month entry of a calendar description: display name and declared day
count.  The source reads `months[i]?.days || 0`; day counts are modelled as
integers, and the data model invariant `0 ≤ days` appears as a hypothesis
where a theorem needs it. -/
structure Month where
  name : String
  days : Int
deriving DecidableEq

/-- Intercalary day block inserted after the month named `after`
(source field `ic.after`, `ic.days`). -/
structure Intercalary where
  after : String
  days : Int
deriving DecidableEq

/-- Reference first-new-moon date of a moon (`moon.firstNewMoon`), with a
1-based month as in the source data. -/
structure FirstNew where
  year : Int
  month : Int
  day : Int
deriving DecidableEq

/-- Named phase segment of a moon (`moon.phases[i]`), length in days.
Lengths are arbitrary rationals: the source reads `Number(length) || 0`
and does not constrain the sign. -/
structure PhaseSeg where
  name : String
  length : ℚ
deriving DecidableEq

/-- Moon configuration (`calendar.moons[i]`).  `firstNewMoon` is kept as a
required field; the fraction-model code also skips a moon whose reference
date is absent, a degenerate case no claim exercises. -/
structure Moon where
  name : String
  cycleLength : ℚ
  firstNewMoon : FirstNew
  phases : List PhaseSeg
deriving DecidableEq

/-- Season entry (`calendar.seasons[i]`), with 1-based inclusive month
bounds; `startMonth > endMonth` denotes a year-wrapping range. -/
structure Season where
  name : String
  startMonth : Int
  endMonth : Int
deriving DecidableEq

/-- Calendar description as consumed from the host: the fields of the
active S&S calendar object that the engine reads. -/
structure Calendar where
  months : List Month
  intercalary : List Intercalary
  seasons : List Season
  moons : List Moon
deriving DecidableEq

/-- Internal date triple: `year`, zero-based `month` index, 1-based `day`.
The month is an `Int` because the source passes `ref.month - 1` without a
lower bound check. -/
structure PlainDate where
  year : Int
  month : Int
  day : Int
deriving DecidableEq

/-- Wire-form date with a 1-based month, as exchanged with the host and
with `getAthasMoonPhases`. -/
structure WireDate where
  year : Int
  month : Int
  day : Int
deriving DecidableEq

/-- Rational counterpart of the source helper
`safeMod = (value, modulus) => ((value % modulus) + modulus) % modulus`.
For `modulus > 0` (the only way the engine calls it: cycle lengths and
360-degree normalisation) the JS double expression equals this exact
floor-based remainder. -/
def safeModQ (value modulus : ℚ) : ℚ :=
  value - modulus * (⌊value / modulus⌋ : ℤ)

/-- Sum of the day counts of every intercalary block attached to month
name `nm` — the inner `for (const ic of intercalary)` loop of
`buildCalendarMeta`. -/
def icSum (inter : List Intercalary) (nm : String) : Int :=
  ((inter.filter (fun ic => ic.after == nm)).map Intercalary.days).sum

/-- Total days contributed by one month in `buildCalendarMeta`'s running
offset: its own days plus its trailing intercalary days. -/
def contrib (inter : List Intercalary) (m : Month) : Int :=
  m.days + icSum inter m.name

/-- Running offset of `buildCalendarMeta` just before month `i`:
the prefix sum of the per-month contributions. -/
def sumTo (inter : List Intercalary) (ms : List Month) (i : Nat) : Int :=
  ((ms.take i).map (contrib inter)).sum

/-- The `monthStarts` array built by `buildCalendarMeta`: entry `i` is the
running offset before month `i`. -/
def monthStartsList (inter : List Intercalary) (ms : List Month) : List Int :=
  (List.range ms.length).map (sumTo inter ms)

/-- The final running offset of `buildCalendarMeta`, returned as
`daysPerYear`. -/
def daysPerYearOf (inter : List Intercalary) (ms : List Month) : Int :=
  (ms.map (contrib inter)).sum

/-- Derived calendar metadata (`{ monthStarts, daysPerYear }`). -/
structure Meta where
  monthStarts : List Int
  daysPerYear : Int
deriving DecidableEq

/-- Embedding of `buildCalendarMeta(calendar)`. -/
def buildCalendarMeta (cal : Calendar) : Meta :=
  ⟨monthStartsList cal.intercalary cal.months, daysPerYearOf cal.intercalary cal.months⟩

/-- Array access `starts[i] || 0` for a possibly negative or out-of-range
index `i` (JS yields `undefined`, coerced to 0 by `|| 0`). -/
def startsAt (starts : List Int) (i : Int) : Int :=
  if 0 ≤ i then starts.getD i.toNat 0 else 0

/-- Embedding of `getDayOfYear(calendar, year, monthIndex, day)` (the
`year` argument is unused in the source). -/
def getDayOfYear (cal : Calendar) (monthIndex day : Int) : Int :=
  startsAt (buildCalendarMeta cal).monthStarts monthIndex + (day - 1) + 1

/-- Embedding of `toAbsoluteDay(calendar, date)`. -/
def toAbsoluteDay (cal : Calendar) (date : PlainDate) : Int :=
  (date.year - 1) * (buildCalendarMeta cal).daysPerYear +
    (getDayOfYear cal date.month date.day - 1)

/-- The backward month scan of `fromAbsoluteDay`:
`for (let i = starts.length - 1; i >= 0; i--) if (doy0 >= starts[i]) { month = i; break }`
with `month = 0` when no entry matches. -/
def pickMonthAux (starts : List Int) (doy0 : Int) : Nat → Nat
  | 0 => 0
  | k + 1 => if starts.getD k 0 ≤ doy0 then k else pickMonthAux starts doy0 k

/-- Embedding of `fromAbsoluteDay(calendar, abs)`.  Note the source uses
`Math.floor(abs / daysPerYear)` (floor division) but the raw JS `%`
(truncating remainder, `Int.tmod`) for `doy0`. -/
def fromAbsoluteDay (cal : Calendar) (abs : Int) : PlainDate :=
  let meta := buildCalendarMeta cal
  let year := abs.fdiv meta.daysPerYear + 1
  let doy0 := abs.tmod meta.daysPerYear
  let month := pickMonthAux meta.monthStarts doy0 meta.monthStarts.length
  ⟨year, (month : Int), doy0 - meta.monthStarts.getD month 0 + 1⟩

/-- The 11-name cycle list (`endlean`) of the year-name calculator. -/
def endlean : List String :=
  ["Ral", "Friend", "Desert", "Priest", "Wind", "Dragon",
   "Mountain", "King", "Silt", "Enemy", "Guthay"]

/-- The 7-name cycle list (`seofean`) of the year-name calculator. -/
def seofean : List String :=
  ["Fury", "Contemplation", "Vengeance", "Slumber", "Defiance",
   "Reverence", "Agitation"]

/-- Apostrophe character used when composing the year name. -/
def apos : String := String.singleton (Char.ofNat 39)

/-- Result record of `getYearInfo`. -/
structure YearInfo where
  year : Int
  kingsAge : Int
  yearInAge : Int
  yearName : String
deriving DecidableEq

/-- Embedding of `getYearInfo(year)` for an explicitly supplied numeric
year (the current-date fallback consults the host and is out of scope).
`Math.floor((y - 1) / 77)` is floor division; the JS `%` is the
truncating remainder `Int.tmod`. -/
def getYearInfo (year : Int) : YearInfo :=
  let kingsAge := (year - 1).fdiv 77 + 1
  let yearInAge := (year - 1).tmod 77 + 1
  let endleanIndex := (yearInAge - 1).tmod (endlean.length : Int)
  let seofeanIndex := (yearInAge - 1).tmod (seofean.length : Int)
  ⟨year, kingsAge, yearInAge,
    endlean.getD endleanIndex.toNat "" ++ apos ++ "s " ++
      seofean.getD seofeanIndex.toNat ""⟩

/-- Single-month ten-day calendar used to exhibit the negative-`abs`
behaviour of `fromAbsoluteDay`. -/
def calC3 : Calendar := ⟨[⟨"A", 10⟩], [], [], []⟩

/-- C2 counterexample: the claim asserts `getYearInfo(14656)` yields
King's Age 190 and year-in-age 27, but the code (implementing
`floor((y-1)/77)+1` and `((y-1) mod 77)+1`, with `14655 = 77*190 + 25`)
yields 191 and 26. -/
theorem getYearInfo14656_counterexample :
    ¬((getYearInfo 14656).kingsAge = 190 ∧ (getYearInfo 14656).yearInAge = 27) := by
  decide

/-- C2 amended: `getYearInfo(14656)` returns King's Age 191 and
year-in-age 26, which is what the documented formulas
`eraIndex = floor((year-1)/77)+1` and `yearInEra = ((year-1) mod 77)+1`
(Euclidean modulo) give at year 14656. -/
theorem getYearInfo14656_amended :
    (getYearInfo 14656).kingsAge = 191 ∧ (getYearInfo 14656).yearInAge = 26 ∧
    (getYearInfo 14656).kingsAge = (14656 - 1) / 77 + 1 ∧
    (getYearInfo 14656).yearInAge = (14656 - 1) % 77 + 1 := by
  decide

/-- C3: on a one-month calendar of 10 days, `fromAbsoluteDay(-1)` returns
`{year 0, month 0, day 0}` — the truncating JS `%` leaves `doy0 = -1`,
so the day is 0 (not `≥ 1`) and the inverse conversion lands on `-11`,
not `-1`: the non-negative Euclidean day-of-year the claim (and the
`safeMod` helper's documentation) requires is not what the code computes
for negative absolute days. -/
theorem fromAbsoluteDayNegative_codeBug :
    fromAbsoluteDay calC3 (-1) = ⟨0, 0, 0⟩ ∧
    ¬(1 ≤ (fromAbsoluteDay calC3 (-1)).day) ∧
    toAbsoluteDay calC3 (fromAbsoluteDay calC3 (-1)) = -11 := by
  decide

/-- Default month used for out-of-range `getD` reads. -/
def mdflt : Month := ⟨"", 0⟩

/-- Declared day count of the month at (0-based) index `i` of the calendar,
`calendar.months[i].days`. -/
def monthDeclaredDays (cal : Calendar) (i : Int) : Int :=
  (cal.months.getD i.toNat mdflt).days

lemma icSum_nonneg {inter : List Intercalary} (hic : ∀ ic ∈ inter, 0 ≤ ic.days)
    (nm : String) : 0 ≤ icSum inter nm := by
  apply List.sum_nonneg
  intro x hx
  simp only [icSum, List.mem_map, List.mem_filter] at hx
  obtain ⟨ic, ⟨hmem, _⟩, rfl⟩ := hx
  exact hic ic hmem

lemma contrib_nonneg {inter : List Intercalary} {m : Month}
    (hm : 0 ≤ m.days) (hic : ∀ ic ∈ inter, 0 ≤ ic.days) :
    0 ≤ contrib inter m :=
  add_nonneg hm (icSum_nonneg hic m.name)

lemma days_le_contrib {inter : List Intercalary} {m : Month}
    (hic : ∀ ic ∈ inter, 0 ≤ ic.days) : m.days ≤ contrib inter m := by
  have := icSum_nonneg hic m.name
  simp only [contrib]
  omega

lemma sumTo_zero (inter : List Intercalary) (ms : List Month) :
    sumTo inter ms 0 = 0 := rfl

lemma sumTo_succ (inter : List Intercalary) (ms : List Month) {i : Nat}
    (h : i < ms.length) :
    sumTo inter ms (i + 1) = sumTo inter ms i + contrib inter (ms.getD i mdflt) := by
  simp only [sumTo, List.take_succ, List.map_append, List.sum_append,
    List.getElem?_eq_getElem h, List.getD_eq_getElem?_getD, Option.toList_some,
    List.map_cons, List.map_nil, List.sum_cons, List.sum_nil, Option.getD_some, add_zero]

lemma sumTo_stable (inter : List Intercalary) (ms : List Month) {i : Nat}
    (h : ms.length ≤ i) : sumTo inter ms i = daysPerYearOf inter ms := by
  simp only [sumTo, daysPerYearOf, List.take_of_length_le h]

lemma sumTo_step_le (inter : List Intercalary) (ms : List Month)
    (hc : ∀ m ∈ ms, 0 ≤ contrib inter m) (i : Nat) :
    sumTo inter ms i ≤ sumTo inter ms (i + 1) := by
  by_cases h : i < ms.length
  · rw [sumTo_succ inter ms h]
    have hmem : ms.getD i mdflt ∈ ms := by
      rw [List.getD_eq_getElem _ _ h]
      exact List.getElem_mem h
    have := hc _ hmem
    omega
  · push_neg at h
    rw [sumTo_stable inter ms h, sumTo_stable inter ms (by omega)]

lemma sumTo_mono (inter : List Intercalary) (ms : List Month)
    (hc : ∀ m ∈ ms, 0 ≤ contrib inter m) {i j : Nat} (hij : i ≤ j) :
    sumTo inter ms i ≤ sumTo inter ms j := by
  induction j, hij using Nat.le_induction with
  | base => exact le_rfl
  | succ k hk ih => exact le_trans ih (sumTo_step_le inter ms hc k)

lemma sumTo_nonneg (inter : List Intercalary) (ms : List Month)
    (hc : ∀ m ∈ ms, 0 ≤ contrib inter m) (i : Nat) :
    0 ≤ sumTo inter ms i := by
  have := sumTo_mono inter ms hc (Nat.zero_le i)
  rwa [sumTo_zero] at this

lemma sumTo_le_daysPerYear (inter : List Intercalary) (ms : List Month)
    (hc : ∀ m ∈ ms, 0 ≤ contrib inter m) (i : Nat) :
    sumTo inter ms i ≤ daysPerYearOf inter ms := by
  rcases le_or_lt ms.length i with h | h
  · exact le_of_eq (sumTo_stable inter ms h)
  · calc sumTo inter ms i ≤ sumTo inter ms ms.length :=
          sumTo_mono inter ms hc (le_of_lt h)
      _ = daysPerYearOf inter ms := sumTo_stable inter ms le_rfl

lemma monthStarts_length (inter : List Intercalary) (ms : List Month) :
    (monthStartsList inter ms).length = ms.length := by
  simp [monthStartsList]

lemma monthStarts_getD (inter : List Intercalary) (ms : List Month) {i : Nat}
    (h : i < ms.length) :
    (monthStartsList inter ms).getD i 0 = sumTo inter ms i := by
  simp [monthStartsList, List.getD_eq_getElem?_getD, List.getElem?_map,
    List.getElem?_range h]

lemma pickMonthAux_lt (starts : List Int) (doy0 : Int) :
    ∀ {k : Nat}, 0 < k → pickMonthAux starts doy0 k < k := by
  intro k
  induction k with
  | zero => omega
  | succ n ih =>
    intro _
    simp only [pickMonthAux]
    split
    · omega
    · rcases Nat.eq_zero_or_pos n with h | h
      · subst h; simp [pickMonthAux]
      · exact lt_trans (ih h) (Nat.lt_succ_self n)

lemma pickMonthAux_le_doy (starts : List Int) (doy0 : Int)
    (h0 : starts.getD 0 0 ≤ doy0) :
    ∀ k, starts.getD (pickMonthAux starts doy0 k) 0 ≤ doy0 := by
  intro k
  induction k with
  | zero => simpa [pickMonthAux] using h0
  | succ n ih =>
    simp only [pickMonthAux]
    split
    · assumption
    · exact ih

lemma pickMonthAux_eq (starts : List Int) (doy0 : Int) :
    ∀ {k m : Nat}, m < k → starts.getD m 0 ≤ doy0 →
      (∀ j, m < j → j < k → doy0 < starts.getD j 0) →
      pickMonthAux starts doy0 k = m := by
  intro k
  induction k with
  | zero => omega
  | succ n ih =>
    intro m hm hle hgt
    simp only [pickMonthAux]
    by_cases hn : starts.getD n 0 ≤ doy0
    · rw [if_pos hn]
      by_contra hne
      have hmn : m < n := by omega
      exact absurd hn (not_le_of_lt (hgt n hmn (Nat.lt_succ_self n)))
    · rw [if_neg hn]
      have hmn : m ≠ n := by
        intro h; subst h; exact hn hle
      exact ih (by omega) hle (fun j h1 h2 => hgt j h1 (by omega))

lemma fdiv_mul_add {q r dpy : Int} (h : 0 < dpy) (h0 : 0 ≤ r) (h1 : r < dpy) :
    (q * dpy + r).fdiv dpy = q := by
  rw [Int.fdiv_eq_ediv _ (le_of_lt h), add_comm,
    Int.add_mul_ediv_right _ _ (ne_of_gt h),
    Int.ediv_eq_zero_of_lt h0 h1, zero_add]

lemma tmod_mul_add {q r dpy : Int} (h : 0 < dpy) (hq : 0 ≤ q) (h0 : 0 ≤ r)
    (h1 : r < dpy) : (q * dpy + r).tmod dpy = r := by
  have habs : 0 ≤ q * dpy + r := add_nonneg (mul_nonneg hq (le_of_lt h)) h0
  rw [Int.tmod_eq_emod habs (le_of_lt h), add_comm, Int.add_mul_emod_self,
    Int.emod_eq_of_lt h0 h1]

lemma toAbsoluteDay_eval (cal : Calendar) (d : PlainDate) :
    toAbsoluteDay cal d =
      (d.year - 1) * daysPerYearOf cal.intercalary cal.months +
        (startsAt (monthStartsList cal.intercalary cal.months) d.month + d.day - 1) := by
  simp only [toAbsoluteDay, getDayOfYear, buildCalendarMeta]
  ring

lemma toAbs_fromAbs_core (cal : Calendar)
    (hdpy : 0 < daysPerYearOf cal.intercalary cal.months) {a : Int} (ha : 0 ≤ a) :
    toAbsoluteDay cal (fromAbsoluteDay cal a) = a := by
  set inter := cal.intercalary
  set ms := cal.months
  set starts := monthStartsList inter ms with hstarts
  set dpy := daysPerYearOf inter ms with hdpydef
  set doy0 := a.tmod dpy with hdoy0
  set mo := pickMonthAux starts doy0 starts.length with hmo
  have hfrom : fromAbsoluteDay cal a =
      ⟨a.fdiv dpy + 1, (mo : Int), doy0 - starts.getD mo 0 + 1⟩ := rfl
  rw [hfrom, toAbsoluteDay_eval cal _]
  show (a.fdiv dpy + 1 - 1) * dpy + (startsAt starts (mo : Int) + (doy0 - starts.getD mo 0 + 1) - 1) = a
  have hAt : startsAt starts (mo : Int) = starts.getD mo 0 := by
    simp [startsAt, Int.toNat_natCast]
  rw [hAt]
  have hdm : a.fdiv dpy = a / dpy := Int.fdiv_eq_ediv _ (le_of_lt hdpy)
  have hmm : doy0 = a % dpy := Int.tmod_eq_emod ha (le_of_lt hdpy)
  have h2 : a / dpy * dpy + a % dpy = a := by
    rw [mul_comm]; exact Int.ediv_add_emod a dpy
  rw [hdm, hmm]
  ring_nf
  ring_nf at h2
  omega

lemma fromAbs_toAbs_core (cal : Calendar)
    (hmd : ∀ m ∈ cal.months, 0 ≤ m.days)
    (hic : ∀ ic ∈ cal.intercalary, 0 ≤ ic.days)
    (hdpy : 0 < daysPerYearOf cal.intercalary cal.months)
    {d : PlainDate} (hy : 1 ≤ d.year) (h0m : 0 ≤ d.month)
    (hmlt : d.month < (cal.months.length : Int))
    (hd1 : 1 ≤ d.day) (hd2 : d.day ≤ monthDeclaredDays cal d.month) :
    fromAbsoluteDay cal (toAbsoluteDay cal d) = d := by
  set inter := cal.intercalary
  set ms := cal.months
  set starts := monthStartsList inter ms with hstarts
  set dpy := daysPerYearOf inter ms with hdpydef
  set mo := d.month.toNat with hmodef
  have hmoInt : (mo : Int) = d.month := Int.toNat_of_nonneg h0m
  have hmolen : mo < ms.length := by
    have h := hmlt
    rw [← hmoInt] at h
    exact_mod_cast h
  have hdays : d.day ≤ (ms.getD mo mdflt).days := hd2
  have hc : ∀ m ∈ ms, 0 ≤ contrib inter m := fun m hm => contrib_nonneg (hmd m hm) hic
  set doy0 := sumTo inter ms mo + d.day - 1 with hdoy0def
  have hdoy0lo : 0 ≤ doy0 := by
    have := sumTo_nonneg inter ms hc mo
    omega
  have hstep : sumTo inter ms mo + (ms.getD mo mdflt).days ≤ sumTo inter ms (mo + 1) := by
    rw [sumTo_succ inter ms hmolen]
    have := @days_le_contrib inter (ms.getD mo mdflt) hic
    omega
  have hdoy0hi : doy0 < dpy := by
    have h2 := sumTo_le_daysPerYear inter ms hc (mo + 1)
    omega
  have habs : toAbsoluteDay cal d = (d.year - 1) * dpy + doy0 := by
    rw [toAbsoluteDay_eval]
    have hAt : startsAt starts d.month = sumTo inter ms mo := by
      rw [← hmoInt, startsAt, if_pos (Int.natCast_nonneg mo), Int.toNat_natCast]
      exact monthStarts_getD inter ms hmolen
    rw [hAt]
  rw [habs]
  have hfrom : fromAbsoluteDay cal ((d.year - 1) * dpy + doy0) =
      ⟨((d.year - 1) * dpy + doy0).fdiv dpy + 1,
        (pickMonthAux starts (((d.year - 1) * dpy + doy0).tmod dpy) starts.length : Int),
        ((d.year - 1) * dpy + doy0).tmod dpy -
          starts.getD (pickMonthAux starts (((d.year - 1) * dpy + doy0).tmod dpy) starts.length) 0 + 1⟩ := rfl
  rw [hfrom]
  have hfd : ((d.year - 1) * dpy + doy0).fdiv dpy = d.year - 1 :=
    fdiv_mul_add hdpy hdoy0lo hdoy0hi
  have htm : ((d.year - 1) * dpy + doy0).tmod dpy = doy0 :=
    tmod_mul_add hdpy (by omega) hdoy0lo hdoy0hi
  rw [htm, hfd]
  have hpick : pickMonthAux starts doy0 starts.length = mo := by
    apply pickMonthAux_eq
    · rw [hstarts, monthStarts_length]; exact hmolen
    · rw [monthStarts_getD inter ms hmolen]; omega
    · intro j h1 h2
      rw [hstarts, monthStarts_length] at h2
      rw [monthStarts_getD inter ms h2]
      have hmono := sumTo_mono inter ms hc (show mo + 1 ≤ j by omega)
      omega
  rw [hpick, monthStarts_getD inter ms hmolen]
  conv_rhs => rw [show d = (⟨d.year, d.month, d.day⟩ : PlainDate) from rfl]
  simp only [PlainDate.mk.injEq]
  exact ⟨by omega, hmoInt, by omega⟩

lemma months_ne_nil_of_dpy_pos {cal : Calendar}
    (hdpy : 0 < daysPerYearOf cal.intercalary cal.months) :
    0 < cal.months.length := by
  rcases cal.months.eq_nil_or_concat with h | _
  · rw [h] at hdpy
    simp [daysPerYearOf] at hdpy
  · cases hms : cal.months with
    | nil => rw [hms] at hdpy; simp [daysPerYearOf] at hdpy
    | cons x xs => simp

lemma fromAbs_bounds_core (cal : Calendar)
    (hdpy : 0 < daysPerYearOf cal.intercalary cal.months) {a : Int} (ha : 0 ≤ a) :
    0 ≤ (fromAbsoluteDay cal a).month ∧
    (fromAbsoluteDay cal a).month < (cal.months.length : Int) ∧
    1 ≤ (fromAbsoluteDay cal a).day := by
  set inter := cal.intercalary
  set ms := cal.months
  set starts := monthStartsList inter ms with hstarts
  set dpy := daysPerYearOf inter ms with hdpydef
  set doy0 := a.tmod dpy with hdoy0
  set mo := pickMonthAux starts doy0 starts.length with hmo
  have hlen : 0 < ms.length := months_ne_nil_of_dpy_pos hdpy
  have hslen : starts.length = ms.length := monthStarts_length inter ms
  have hfrom : fromAbsoluteDay cal a =
      ⟨a.fdiv dpy + 1, (mo : Int), doy0 - starts.getD mo 0 + 1⟩ := rfl
  rw [hfrom]
  dsimp only
  have hmolt : mo < ms.length := by
    rw [← hslen]
    exact pickMonthAux_lt starts doy0 (by omega)
  have hdoy0nn : 0 ≤ doy0 := Int.tmod_nonneg dpy ha
  have hle : starts.getD mo 0 ≤ doy0 := by
    apply pickMonthAux_le_doy
    rw [monthStarts_getD inter ms hlen, sumTo_zero]
    exact hdoy0nn
  refine ⟨Int.natCast_nonneg mo, ?_, by omega⟩
  exact_mod_cast hmolt

/-- Characterisation of an absolute day-of-year that falls on intercalary
days: it lies inside no month's declared day span. -/
def isIntercalaryDoy (cal : Calendar) (doy0 : Int) : Prop :=
  ∀ i, i < cal.months.length →
    ¬(sumTo cal.intercalary cal.months i ≤ doy0 ∧
      doy0 < sumTo cal.intercalary cal.months i + (cal.months.getD i mdflt).days)

instance (cal : Calendar) (doy0 : Int) : Decidable (isIntercalaryDoy cal doy0) := by
  unfold isIntercalaryDoy
  infer_instance

lemma fromAbs_intercalary_core (cal : Calendar)
    (hdpy : 0 < daysPerYearOf cal.intercalary cal.months) {a : Int} (ha : 0 ≤ a)
    (hint : isIntercalaryDoy cal (a.tmod (daysPerYearOf cal.intercalary cal.months))) :
    monthDeclaredDays cal (fromAbsoluteDay cal a).month < (fromAbsoluteDay cal a).day := by
  set inter := cal.intercalary
  set ms := cal.months
  set starts := monthStartsList inter ms with hstarts
  set dpy := daysPerYearOf inter ms with hdpydef
  set doy0 := a.tmod dpy with hdoy0
  set mo := pickMonthAux starts doy0 starts.length with hmo
  have hlen : 0 < ms.length := months_ne_nil_of_dpy_pos hdpy
  have hslen : starts.length = ms.length := monthStarts_length inter ms
  have hfrom : fromAbsoluteDay cal a =
      ⟨a.fdiv dpy + 1, (mo : Int), doy0 - starts.getD mo 0 + 1⟩ := rfl
  rw [hfrom]
  have hmolt : mo < ms.length := by
    rw [← hslen]
    exact pickMonthAux_lt starts doy0 (by omega)
  have hle : starts.getD mo 0 ≤ doy0 := by
    apply pickMonthAux_le_doy
    rw [monthStarts_getD inter ms hlen, sumTo_zero]
    exact Int.tmod_nonneg dpy ha
  have hmdd : monthDeclaredDays cal ((mo : Nat) : Int) = (ms.getD mo mdflt).days := by
    rw [monthDeclaredDays, Int.toNat_natCast]
  have hgd := monthStarts_getD inter ms hmolt
  have hni := hint mo hmolt
  rw [hgd] at hle
  push_neg at hni
  have hle2 : sumTo cal.intercalary cal.months mo ≤ doy0 := hle
  have hsum : sumTo inter ms mo + (ms.getD mo mdflt).days ≤ doy0 := hni hle2
  show monthDeclaredDays cal ((mo : Nat) : Int) < doy0 - starts.getD mo 0 + 1
  rw [hmdd, hgd]
  omega

/-- C1: on any calendar obeying the data-model invariants (non-negative
month and intercalary day counts) with a positive year length, converting
a valid internal date to its absolute day and back is the identity, and
converting any non-negative absolute day to a date and back is the
identity. -/
theorem absoluteDayRoundTrip (cal : Calendar)
    (hmd : ∀ m ∈ cal.months, 0 ≤ m.days)
    (hic : ∀ ic ∈ cal.intercalary, 0 ≤ ic.days)
    (hdpy : 0 < (buildCalendarMeta cal).daysPerYear) :
    (∀ d : PlainDate, 1 ≤ d.year → 0 ≤ d.month → d.month < (cal.months.length : Int) →
        1 ≤ d.day → d.day ≤ monthDeclaredDays cal d.month →
        fromAbsoluteDay cal (toAbsoluteDay cal d) = d) ∧
    (∀ a : Int, 0 ≤ a → toAbsoluteDay cal (fromAbsoluteDay cal a) = a) :=
  ⟨fun _ hy h0m hmlt hd1 hd2 => fromAbs_toAbs_core cal hmd hic hdpy hy h0m hmlt hd1 hd2,
   fun _ ha => toAbs_fromAbs_core cal hdpy ha⟩

/-- Two-month calendar with an intercalary block after the first month,
used to instantiate the round-trip theorems. -/
def calW : Calendar := ⟨[⟨"A", 5⟩, ⟨"B", 4⟩], [⟨"A", 2⟩], [], []⟩

/-- C1 witness: the round trip evaluated on the concrete calendar `calW`
(days per year 11) at the date year 1, month index 1, day 3 and at the
absolute day 17. -/
theorem absoluteDayRoundTrip_witness :
    fromAbsoluteDay calW (toAbsoluteDay calW ⟨1, 1, 3⟩) = ⟨1, 1, 3⟩ ∧
    toAbsoluteDay calW (fromAbsoluteDay calW 17) = 17 :=
  ⟨(absoluteDayRoundTrip calW (by decide) (by decide) (by decide)).1 ⟨1, 1, 3⟩
      (by decide) (by decide) (by decide) (by decide) (by decide),
   (absoluteDayRoundTrip calW (by decide) (by decide) (by decide)).2 17 (by decide)⟩

/-- C9: on any calendar with a positive year length, `fromAbsoluteDay` of a
non-negative absolute day returns a month index inside the month list and a
day at least 1; the result always maps back to the same absolute day via
`toAbsoluteDay`; and when the day-of-year falls on intercalary days the
returned day overflows the declared length of the returned month. -/
theorem fromAbsoluteDayBounds (cal : Calendar)
    (hdpy : 0 < (buildCalendarMeta cal).daysPerYear) (a : Int) (ha : 0 ≤ a) :
    0 ≤ (fromAbsoluteDay cal a).month ∧
    (fromAbsoluteDay cal a).month < (cal.months.length : Int) ∧
    1 ≤ (fromAbsoluteDay cal a).day ∧
    toAbsoluteDay cal (fromAbsoluteDay cal a) = a ∧
    (isIntercalaryDoy cal (a.tmod (buildCalendarMeta cal).daysPerYear) →
      monthDeclaredDays cal (fromAbsoluteDay cal a).month < (fromAbsoluteDay cal a).day) :=
  ⟨(fromAbs_bounds_core cal hdpy ha).1,
   (fromAbs_bounds_core cal hdpy ha).2.1,
   (fromAbs_bounds_core cal hdpy ha).2.2,
   toAbs_fromAbs_core cal hdpy ha,
   fun hint => fromAbs_intercalary_core cal hdpy ha hint⟩

/-- One-month calendar (5 declared days) with a 2-day intercalary block,
so absolute days 5 and 6 of each year are intercalary. -/
def calW9 : Calendar := ⟨[⟨"A", 5⟩], [⟨"A", 2⟩], [], []⟩

/-- C9 witness: at absolute day 5 of `calW9` (an intercalary day) the
returned date is day 6 of the 5-day month. -/
theorem fromAbsoluteDayBounds_witness :
    1 ≤ (fromAbsoluteDay calW9 5).day ∧
    toAbsoluteDay calW9 (fromAbsoluteDay calW9 5) = 5 ∧
    monthDeclaredDays calW9 (fromAbsoluteDay calW9 5).month < (fromAbsoluteDay calW9 5).day :=
  ⟨(fromAbsoluteDayBounds calW9 (by decide) 5 (by decide)).2.2.1,
   (fromAbsoluteDayBounds calW9 (by decide) 5 (by decide)).2.2.2.1,
   (fromAbsoluteDayBounds calW9 (by decide) 5 (by decide)).2.2.2.2 (by decide)⟩

/-- Record produced by the segment-model `computeMoonPhase`: moon name,
cycle length, current age, current phase name (`phase?.name || null`),
segment index and forward distances to the named phases. -/
structure SegPhaseRecord where
  name : String
  cycleLength : ℚ
  age : ℚ
  phaseName : Option String
  phaseIndex : Nat
  daysUntilNew : Option ℚ
  daysUntilFull : Option ℚ
deriving DecidableEq

/-- Default segment for reads past the end of the list
(`phases[idx]?.name || ''` and `Number(phases[idx]?.length) || 0`). -/
def segDflt : PhaseSeg := ⟨"", 0⟩

/-- Lower-casing as used by `toLowerCase()` in the source: `Char.toLower`
mapped over the characters (the names involved are ASCII). -/
def toLowerStr (s : String) : String := ⟨s.data.map Char.toLower⟩

/-- The segment-locating loop of `computeMoonPhase`: walk the segments
accumulating lengths and stop at the first with `age < accum + segLen`,
returning `(phaseIndex, segmentStart)`; `(0, 0)` if the loop never breaks. -/
def findSegmentAux (age : ℚ) : List PhaseSeg → Nat → ℚ → Nat × ℚ
  | [], _, _ => (0, 0)
  | p :: ps, i, accum =>
      if age < accum + p.length then (i, accum)
      else findSegmentAux age ps (i + 1) (accum + p.length)

/-- One step of the inner `daysUntilPhase` loop, with explicit fuel equal
to the number of remaining admissible `step` values. -/
def daysUntilPhaseAux (phases : List PhaseSeg) (target : String) :
    Nat → Nat → ℚ → ℚ → Option ℚ
  | 0, _, _, _ => none
  | fuel + 1, idx, pos, d =>
      if toLowerStr (phases.getD idx segDflt).name = target then
        some (d + ((phases.getD idx segDflt).length - pos))
      else
        daysUntilPhaseAux phases target fuel ((idx + 1) % phases.length) 0
          (d + ((phases.getD idx segDflt).length - pos))

/-- Embedding of the closure `daysUntilPhase(targetLower)` of
`computeMoonPhase`.  The source loop runs `step = 0 .. cycle + phases.length`
inclusive, i.e. `⌊cycle⌋ + phases.length + 1` iterations, and returns null
when the loop exhausts or the list is empty. -/
def daysUntilPhase (phases : List PhaseSeg) (cycle : ℚ) (phaseIndex : Nat)
    (posInSegment : ℚ) (target : String) : Option ℚ :=
  if phases.length = 0 then none
  else
    daysUntilPhaseAux phases target (⌊cycle⌋ + (phases.length : Int) + 1).toNat
      phaseIndex posInSegment 0

/-- Embedding of `computeMoonPhase(calendar, date, moon)` (segment model).
A present `moon` with `Number(cycleLength) || 0 ≤ 0` yields null; otherwise
a record is always produced, even when the phase list is empty. -/
def computeMoonPhase (cal : Calendar) (date : PlainDate) (moon : Moon) :
    Option SegPhaseRecord :=
  if moon.cycleLength ≤ 0 then none
  else
    let ref := moon.firstNewMoon
    let refAbs := toAbsoluteDay cal ⟨ref.year, ref.month - 1, ref.day⟩
    let abs := toAbsoluteDay cal date
    let age := safeModQ ((abs : ℚ) - (refAbs : ℚ)) moon.cycleLength
    let fs := findSegmentAux age moon.phases 0 0
    let posInSegment := age - fs.2
    some ⟨moon.name, moon.cycleLength, age,
      (moon.phases.get? fs.1).bind (fun p => if p.name = "" then none else some p.name),
      fs.1,
      daysUntilPhase moon.phases moon.cycleLength fs.1 posInSegment "new moon",
      daysUntilPhase moon.phases moon.cycleLength fs.1 posInSegment "full moon"⟩

/-- Embedding of `getMoonPhasesForDate(date)`, with the host-resolved
active calendar passed explicitly: map `computeMoonPhase` over the moons
and drop the null results (`filter(Boolean)`). -/
def getMoonPhasesForDate (cal : Calendar) (date : PlainDate) : List SegPhaseRecord :=
  cal.moons.filterMap (computeMoonPhase cal date)

/-- Moon with a positive cycle but an empty phase-segment list. -/
def moonE5 : Moon := ⟨"M", 1, ⟨1, 1, 1⟩, []⟩

/-- Calendar holding only `moonE5`. -/
def calE5 : Calendar := ⟨[⟨"A", 30⟩], [], [], [moonE5]⟩

/-- C5 counterexample: a moon with an empty phase-segment list is not
skipped — `computeMoonPhase` returns a record (with null phase name) and
the aggregator keeps it, contrary to the claim that such a moon produces
no record. -/
theorem emptyPhasesRecord_counterexample :
    computeMoonPhase calE5 ⟨1, 0, 1⟩ moonE5 ≠ none ∧
    (getMoonPhasesForDate calE5 ⟨1, 0, 1⟩).length = 1 := by
  decide

lemma computeMoonPhase_length (cal : Calendar) (date : PlainDate) :
    ∀ moons : List Moon,
      (moons.filterMap (computeMoonPhase cal date)).length =
        (moons.filter (fun m => decide (0 < m.cycleLength))).length := by
  intro moons
  induction moons with
  | nil => rfl
  | cons m ms ih =>
    by_cases h : m.cycleLength ≤ 0
    · have hnone : computeMoonPhase cal date m = none := by
        unfold computeMoonPhase
        rw [if_pos h]
      have hdec : decide (0 < m.cycleLength) = false := by
        simp [not_lt.mpr h]
      simp [List.filterMap_cons, List.filter_cons, hnone, hdec, ih]
    · have hsome : computeMoonPhase cal date m ≠ none := by
        unfold computeMoonPhase
        rw [if_neg h]
        simp
      have hdec : decide (0 < m.cycleLength) = true := by
        simp [lt_of_not_le h]
      rcases Option.ne_none_iff_exists.mp hsome with ⟨r, hr⟩
      simp [List.filterMap_cons, List.filter_cons, ← hr, hdec, ih]

/-- C5 amended: a moon with `cycleLength ≤ 0` is skipped (no record, no
error) and dropped by the aggregator, and every other moon is processed;
but a moon with a positive cycle and an empty phase-segment list is not
skipped — it yields a record whose phase name and forward distances are
null, and the aggregator keeps exactly the moons with positive cycle. -/
theorem moonSkipRules_amended (cal : Calendar) (date : PlainDate) (moon : Moon) :
    (moon.cycleLength ≤ 0 → computeMoonPhase cal date moon = none) ∧
    (0 < moon.cycleLength → ∃ r, computeMoonPhase cal date moon = some r) ∧
    (0 < moon.cycleLength → moon.phases = [] →
      ∃ r, computeMoonPhase cal date moon = some r ∧ r.phaseName = none ∧
        r.daysUntilNew = none ∧ r.daysUntilFull = none) ∧
    (getMoonPhasesForDate cal date).length =
      (cal.moons.filter (fun m => decide (0 < m.cycleLength))).length := by
  refine ⟨?_, ?_, ?_, computeMoonPhase_length cal date cal.moons⟩
  · intro h
    unfold computeMoonPhase
    rw [if_pos h]
  · intro h
    unfold computeMoonPhase
    rw [if_neg (not_le.mpr h)]
    exact ⟨_, rfl⟩
  · intro h he
    unfold computeMoonPhase
    rw [if_neg (not_le.mpr h), he]
    exact ⟨_, rfl, rfl, rfl, rfl⟩

/-- Zero-cycle moon used to instantiate the skip rule. -/
def moonZ5 : Moon := ⟨"Z", 0, ⟨1, 1, 1⟩, [⟨"New Moon", 1⟩]⟩

/-- Calendar with the zero-cycle moon `moonZ5` and one healthy moon. -/
def calZ5 : Calendar := ⟨[⟨"A", 30⟩], [], [], [moonZ5, ⟨"M", 2, ⟨1, 1, 1⟩, [⟨"New Moon", 2⟩]⟩]⟩

/-- C5 witness: on `calZ5` the zero-cycle moon is skipped while the healthy
moon is still processed, so the aggregator returns exactly one record. -/
theorem moonSkipRules_amended_witness :
    computeMoonPhase calZ5 ⟨1, 0, 1⟩ moonZ5 = none ∧
    (getMoonPhasesForDate calZ5 ⟨1, 0, 1⟩).length = 1 :=
  ⟨(moonSkipRules_amended calZ5 ⟨1, 0, 1⟩ moonZ5).1 (by decide),
   Eq.trans (moonSkipRules_amended calZ5 ⟨1, 0, 1⟩ moonZ5).2.2.2 (by decide)⟩

lemma findSegmentAux_fst (age : ℚ) :
    ∀ (ps : List PhaseSeg) (i : Nat) (acc : ℚ),
      (findSegmentAux age ps i acc).1 < i + ps.length ∨ (findSegmentAux age ps i acc).1 = 0 := by
  intro ps
  induction ps with
  | nil => intro i acc; right; rfl
  | cons p rest ih =>
    intro i acc
    simp only [findSegmentAux]
    split
    · left
      dsimp only
      simp only [List.length_cons]
      omega
    · rcases ih (i + 1) (acc + p.length) with h | h
      · left; simp only [List.length_cons]; omega
      · right; exact h

lemma findSegment_fst_lt (age : ℚ) (phases : List PhaseSeg) (h : phases ≠ []) :
    (findSegmentAux age phases 0 0).1 < phases.length := by
  have hlen : 0 < phases.length := List.length_pos.mpr h
  rcases findSegmentAux_fst age phases 0 0 with h1 | h1
  · omega
  · omega

lemma daysUntilPhaseAux_none (phases : List PhaseSeg) (target : String)
    (habs : ∀ seg ∈ phases, toLowerStr seg.name ≠ target) :
    ∀ (fuel idx : Nat) (pos d : ℚ), idx < phases.length →
      daysUntilPhaseAux phases target fuel idx pos d = none := by
  intro fuel
  induction fuel with
  | zero => intros; rfl
  | succ n ih =>
    intro idx pos d hidx
    have hseg : phases.getD idx segDflt ∈ phases := by
      rw [List.getD_eq_getElem _ _ hidx]
      exact List.getElem_mem hidx
    rw [daysUntilPhaseAux, if_neg (habs _ hseg)]
    exact ih _ 0 _ (Nat.mod_lt _ (by omega))

lemma daysUntilPhaseAux_finds (phases : List PhaseSeg) (target : String) :
    ∀ (fuel idx : Nat) (pos d : ℚ), idx < phases.length →
      (∃ t, t < fuel ∧
        toLowerStr (phases.getD ((idx + t) % phases.length) segDflt).name = target) →
      (daysUntilPhaseAux phases target fuel idx pos d).isSome = true := by
  intro fuel
  induction fuel with
  | zero =>
    intro idx pos d _ h
    obtain ⟨t, ht, _⟩ := h
    omega
  | succ n ih =>
    intro idx pos d hidx h
    obtain ⟨t, ht, hmatch⟩ := h
    rw [daysUntilPhaseAux]
    by_cases h0 : toLowerStr (phases.getD idx segDflt).name = target
    · rw [if_pos h0]; rfl
    · rw [if_neg h0]
      apply ih _ 0 _ (Nat.mod_lt _ (by omega))
      have htne : t ≠ 0 := by
        intro hzero
        subst hzero
        rw [Nat.add_zero, Nat.mod_eq_of_lt hidx] at hmatch
        exact h0 hmatch
      refine ⟨t - 1, by omega, ?_⟩
      have hmod : ((idx + 1) % phases.length + (t - 1)) % phases.length =
          (idx + t) % phases.length := by
        rw [Nat.mod_add_mod]
        congr 1
        omega
      rw [hmod]
      exact hmatch

lemma daysUntilPhase_none_iff (phases : List PhaseSeg) (cycle : ℚ) (idx : Nat)
    (pos : ℚ) (target : String) (hidx : idx < phases.length) (hc : 0 < cycle) :
    daysUntilPhase phases cycle idx pos target = none ↔
      ∀ seg ∈ phases, toLowerStr seg.name ≠ target := by
  unfold daysUntilPhase
  rw [if_neg (by omega : ¬phases.length = 0)]
  constructor
  · intro hnone seg hseg heq
    obtain ⟨j, hj, hjget⟩ := List.mem_iff_getElem.mp hseg
    have hfuel : phases.length <
        (⌊cycle⌋ + (phases.length : Int) + 1).toNat := by
      have hfl : (0 : Int) ≤ ⌊cycle⌋ := Int.floor_nonneg.mpr (le_of_lt hc)
      omega
    have hsome := daysUntilPhaseAux_finds phases target
      (⌊cycle⌋ + (phases.length : Int) + 1).toNat idx pos 0 hidx
      ⟨(j + phases.length - idx) % phases.length,
        lt_trans (Nat.mod_lt _ (by omega)) hfuel, ?_⟩
    · rw [hnone] at hsome
      exact Bool.false_ne_true hsome
    · have h1 : (idx + (j + phases.length - idx) % phases.length) % phases.length = j := by
        rw [Nat.add_mod_mod]
        have h2 : idx + (j + phases.length - idx) = j + phases.length := by omega
        rw [h2, Nat.add_mod_right, Nat.mod_eq_of_lt hj]
      rw [h1, List.getD_eq_getElem _ _ hj, hjget]
      exact heq
  · intro habs
    exact daysUntilPhaseAux_none phases target habs _ idx pos 0 hidx

/-- C6 amended: for a moon with a positive cycle and a non-empty segment
list the forward search always terminates (it is a loop of at most
`⌊cycle⌋ + segmentCount + 1` name checks) and returns null exactly when no
segment's name matches the target case-insensitively; zero-length segments
contribute 0 distance, but negative-length segments contribute their
(negative) length rather than 0. -/
theorem daysUntilPhaseSearch_amended (cal : Calendar) (date : PlainDate) (moon : Moon)
    (hc : 0 < moon.cycleLength) (hph : moon.phases ≠ []) :
    ∃ r, computeMoonPhase cal date moon = some r ∧
      (r.daysUntilNew = none ↔ ∀ seg ∈ moon.phases, toLowerStr seg.name ≠ "new moon") ∧
      (r.daysUntilFull = none ↔ ∀ seg ∈ moon.phases, toLowerStr seg.name ≠ "full moon") := by
  have hidx : (findSegmentAux
      (safeModQ (((toAbsoluteDay cal date) : ℚ) -
        ((toAbsoluteDay cal ⟨moon.firstNewMoon.year, moon.firstNewMoon.month - 1,
          moon.firstNewMoon.day⟩) : ℚ)) moon.cycleLength) moon.phases 0 0).1 <
      moon.phases.length := findSegment_fst_lt _ moon.phases hph
  unfold computeMoonPhase
  rw [if_neg (not_le.mpr hc)]
  refine ⟨_, rfl, ?_, ?_⟩
  · exact daysUntilPhase_none_iff moon.phases moon.cycleLength _ _ "new moon" hidx hc
  · exact daysUntilPhase_none_iff moon.phases moon.cycleLength _ _ "full moon" hidx hc

/-- Modelled from the spec sentence "Segments with non-positive length are
tolerated (contribute 0)": variant of the forward-search loop in which each
segment contributes `max (length - pos) 0` instead of `length - pos`. -/
def daysUntilPhaseContribZeroAux (phases : List PhaseSeg) (target : String) :
    Nat → Nat → ℚ → ℚ → Option ℚ
  | 0, _, _, _ => none
  | fuel + 1, idx, pos, d =>
      if toLowerStr (phases.getD idx segDflt).name = target then
        some (d + max ((phases.getD idx segDflt).length - pos) 0)
      else
        daysUntilPhaseContribZeroAux phases target fuel ((idx + 1) % phases.length) 0
          (d + max ((phases.getD idx segDflt).length - pos) 0)

/-- Modelled from the spec: `daysUntilPhase` as the claim describes it,
with non-positive-length segments contributing 0 distance. -/
def daysUntilPhaseContribZero (phases : List PhaseSeg) (cycle : ℚ) (phaseIndex : Nat)
    (posInSegment : ℚ) (target : String) : Option ℚ :=
  if phases.length = 0 then none
  else
    daysUntilPhaseContribZeroAux phases target
      (⌊cycle⌋ + (phases.length : Int) + 1).toNat phaseIndex posInSegment 0

/-- Moon whose middle segment has a negative length. -/
def moon6 : Moon := ⟨"M", 10, ⟨1, 1, 1⟩, [⟨"New Moon", 2⟩, ⟨"Dim", -4⟩, ⟨"Full Moon", 3⟩]⟩

/-- Calendar holding only `moon6`. -/
def cal6 : Calendar := ⟨[⟨"A", 30⟩], [], [], [moon6]⟩

/-- C6 counterexample: with a segment of length -4 between the current
segment and the target, the code's search returns a distance of 1 (the
negative segment contributes its negative length), while the claimed
contribute-0 behaviour would return 5. -/
theorem negativeSegment_counterexample :
    (computeMoonPhase cal6 ⟨1, 0, 1⟩ moon6).map SegPhaseRecord.daysUntilFull =
      some (some 1) ∧
    daysUntilPhaseContribZero moon6.phases 10 0 0 "full moon" = some 5 ∧
    (1 : ℚ) ≠ 5 :=
  of_decide_eq_true (by with_unfolding_all rfl)

/-- Moon with a single segment named "New Moon" (no "Full Moon"). -/
def moonW6 : Moon := ⟨"W", 3, ⟨1, 1, 1⟩, [⟨"New Moon", 3⟩]⟩

/-- Calendar holding only `moonW6`. -/
def calW6 : Calendar := ⟨[⟨"A", 30⟩], [], [], [moonW6]⟩

/-- C6 witness: on `moonW6` the search for "full moon" (never present)
returns null while the search for "new moon" (present) returns a value. -/
theorem daysUntilPhaseSearch_amended_witness :
    ∃ r, computeMoonPhase calW6 ⟨1, 0, 2⟩ moonW6 = some r ∧
      r.daysUntilFull = none ∧ ¬(r.daysUntilNew = none) := by
  obtain ⟨r, hr, hnew, hfull⟩ :=
    daysUntilPhaseSearch_amended calW6 ⟨1, 0, 2⟩ moonW6
      (of_decide_eq_true (by with_unfolding_all rfl)) (by decide)
  refine ⟨r, hr, hfull.mpr (of_decide_eq_true (by with_unfolding_all rfl)),
    fun h => ?_⟩
  have h2 := hnew.mp h
  exact (h2 ⟨"New Moon", 3⟩ (of_decide_eq_true (by with_unfolding_all rfl)))
    (of_decide_eq_true (by with_unfolding_all rfl))

/-- Record produced by the fraction-model `getAthasMoonPhases`.  The
`illumination` field (`round(50*(1+cos(2π(frac-0.5))))`) is transcendental
and omitted — no claim mentions it. -/
structure AthasPhase where
  name : String
  cycleLength : ℚ
  age : ℚ
  phaseName : String
  daysUntilFull : Int
  daysUntilNew : Int
deriving DecidableEq

/-- Phase name from the cycle fraction by the fixed eighths breakpoints of
`getAthasMoonPhases`. -/
def fracPhaseName (frac : ℚ) : String :=
  if frac < 1/8 then "New Moon"
  else if frac < 1/4 then "Waxing Crescent"
  else if frac < 3/8 then "First Quarter"
  else if frac < 1/2 then "Waxing Gibbous"
  else if frac < 5/8 then "Full Moon"
  else if frac < 3/4 then "Waning Gibbous"
  else if frac < 7/8 then "Last Quarter"
  else "Waning Crescent"

/-- The running total `run` rebuilt inside `getAthasMoonPhases` — the same
loop as `buildCalendarMeta`, so the same value as `daysPerYear`. -/
def athasRun (cal : Calendar) : Int :=
  daysPerYearOf cal.intercalary cal.months

/-- The year length used by `getAthasMoonPhases`: `run || 375`, i.e. the
fallback 375 exactly when the months and intercalary blocks sum to 0. -/
def athasDPY (cal : Calendar) : Int :=
  if athasRun cal = 0 then 375 else athasRun cal

/-- The local `toAbs` closure of `getAthasMoonPhases`
(`(d.year-1)*daysPerYear + ((starts[d.month]||0) + (d.day-1) + 1) - 1`). -/
def athasToAbs (cal : Calendar) (y mo d : Int) : Int :=
  (y - 1) * athasDPY cal +
    (startsAt (monthStartsList cal.intercalary cal.months) mo + (d - 1) + 1 - 1)

/-- The epsilon tolerance `1e-3` of `getAthasMoonPhases`. -/
def eps : ℚ := 1/1000

/-- The per-moon body of the `for (const m of moons)` loop of
`getAthasMoonPhases`: null when `cycle ≤ 0`, otherwise the fraction-model
record (the `if (!ref) continue` guard is vacuous here because the
embedding keeps `firstNewMoon` as a required field). -/
def athasMoonRecord (cal : Calendar) (abs : Int) (m : Moon) : Option AthasPhase :=
  if m.cycleLength ≤ 0 then none
  else
    let refAbs := athasToAbs cal m.firstNewMoon.year (m.firstNewMoon.month - 1)
      m.firstNewMoon.day
    let ageDays := safeModQ ((abs : ℚ) - (refAbs : ℚ)) m.cycleLength
    let frac := ageDays / m.cycleLength
    some ⟨m.name, m.cycleLength, ageDays, fracPhaseName frac,
      if |frac - 1/2| < eps then 0
        else ⌈(if frac < 1/2 then 1/2 - frac else 3/2 - frac) * m.cycleLength⌉,
      if frac < eps ∨ 1 - eps < frac then 0 else ⌈(1 - frac) * m.cycleLength⌉⟩

/-- Embedding of `getAthasMoonPhases(date)` with the active calendar passed
explicitly and the date always supplied (the current-date fallback consults
the host). -/
def getAthasMoonPhases (cal : Calendar) (date : WireDate) : List AthasPhase :=
  let date0month : Int := max 0 (date.month - 1)
  let abs := athasToAbs cal date.year date0month date.day
  cal.moons.filterMap (athasMoonRecord cal abs)

/-- Wire date (1-based month) handed to `getAthasMoonPhases` by the
scanners for an absolute day: `{year: d.year, month: d.month + 1, day: d.day}`. -/
def wireOfAbs (cal : Calendar) (abs : Int) : WireDate :=
  ⟨(fromAbsoluteDay cal abs).year, (fromAbsoluteDay cal abs).month + 1,
    (fromAbsoluteDay cal abs).day⟩

/-- Phase list the scanners evaluate on the day `abs`. -/
def athasPhasesAt (cal : Calendar) (abs : Int) : List AthasPhase :=
  getAthasMoonPhases cal (wireOfAbs cal abs)

/-- Embedding of `makeDate0`: normalise a possibly 1-based wire month to a
0-based internal month (`Math.max(0, month - 1)`). -/
def makeDate0 (d : WireDate) : PlainDate :=
  ⟨d.year, max 0 (d.month - 1), d.day⟩

/-- Inclusive integer range `[a, b]` as a list (`for (abs = a; abs <= b; abs++)`). -/
def intRange (a b : Int) : List Int :=
  (List.range (b - a + 1).toNat).map (fun i => a + (i : Int))

/-- Absolute days visited by the range scanners: endpoints converted via
`toAbsoluteDay`, swapped when out of order. -/
def scanDays (cal : Calendar) (fromD toD : WireDate) : List Int :=
  intRange (min (toAbsoluteDay cal (makeDate0 fromD)) (toAbsoluteDay cal (makeDate0 toD)))
    (max (toAbsoluteDay cal (makeDate0 fromD)) (toAbsoluteDay cal (makeDate0 toD)))

/-- Match record pushed by `scanEclipsesRange`. -/
structure EclipseMatch where
  date : WireDate
  type : String
  phases : List AthasPhase
deriving DecidableEq

/-- Per-day eclipse test of `scanEclipsesRange`, as a function of the wire
date the scanner rebuilds from the absolute day. -/
def eclipseCheckW (cal : Calendar) (w : WireDate) : Option EclipseMatch :=
  let phases := getAthasMoonPhases cal w
  if phases.length < 2 then none
  else
    let bothNew := phases.all (fun p => toLowerStr p.phaseName == "new moon")
    let bothFull := phases.all (fun p => toLowerStr p.phaseName == "full moon")
    if bothNew || bothFull then
      some ⟨w, if bothFull then "Brightest" else "Darkest", phases⟩
    else none

/-- Embedding of `scanEclipsesRange(fromDate, toDate)`. -/
def scanEclipsesRange (cal : Calendar) (fromD toD : WireDate) : List EclipseMatch :=
  (scanDays cal fromD toD).filterMap (fun abs => eclipseCheckW cal (wireOfAbs cal abs))

lemma athasRecord_length (cal : Calendar) (abs : Int) :
    ∀ moons : List Moon,
      (moons.filterMap (athasMoonRecord cal abs)).length =
        (moons.filter (fun m => decide (0 < m.cycleLength))).length := by
  intro moons
  induction moons with
  | nil => rfl
  | cons m ms ih =>
    by_cases h : m.cycleLength ≤ 0
    · have hnone : athasMoonRecord cal abs m = none := by
        unfold athasMoonRecord
        rw [if_pos h]
      have hdec : decide (0 < m.cycleLength) = false := by
        simp [not_lt.mpr h]
      simp [List.filterMap_cons, List.filter_cons, hnone, hdec, ih]
    · have hsome : athasMoonRecord cal abs m ≠ none := by
        unfold athasMoonRecord
        rw [if_neg h]
        simp
      have hdec : decide (0 < m.cycleLength) = true := by
        simp [lt_of_not_le h]
      rcases Option.ne_none_iff_exists.mp hsome with ⟨r, hr⟩
      simp [List.filterMap_cons, List.filter_cons, ← hr, hdec, ih]

/-- C10: when the months and intercalary blocks sum to 0 days,
`getAthasMoonPhases` substitutes the fallback year length 375 and still
returns one record per well-configured moon, while the metadata used by
`toAbsoluteDay`/`fromAbsoluteDay` keeps `daysPerYear = 0` (no fallback). -/
theorem athasFallbackYearLength (cal : Calendar) (date : WireDate)
    (h : daysPerYearOf cal.intercalary cal.months = 0) :
    athasDPY cal = 375 ∧
    (buildCalendarMeta cal).daysPerYear = 0 ∧
    (getAthasMoonPhases cal date).length =
      (cal.moons.filter (fun m => decide (0 < m.cycleLength))).length := by
  refine ⟨?_, h, ?_⟩
  · unfold athasDPY athasRun
    rw [if_pos h]
  · exact athasRecord_length cal _ cal.moons

/-- Monthless calendar with a single healthy moon. -/
def cal10 : Calendar := ⟨[], [], [], [⟨"Ral", 33, ⟨1, 1, 1⟩, []⟩]⟩

/-- C10 witness: `cal10` has zero total days, yet the fraction model uses
375 days and produces its one moon record. -/
theorem athasFallbackYearLength_witness :
    athasDPY cal10 = 375 ∧
    (buildCalendarMeta cal10).daysPerYear = 0 ∧
    (getAthasMoonPhases cal10 ⟨1, 1, 1⟩).length = 1 :=
  ⟨(athasFallbackYearLength cal10 ⟨1, 1, 1⟩ (by decide)).1,
   (athasFallbackYearLength cal10 ⟨1, 1, 1⟩ (by decide)).2.1,
   Eq.trans (athasFallbackYearLength cal10 ⟨1, 1, 1⟩ (by decide)).2.2
     (of_decide_eq_true (by with_unfolding_all rfl))⟩

/-- Default phase record for positional fallback reads (`phases[0]`,
`phases[1]`). -/
def dummyAthasPhase : AthasPhase := ⟨"", 0, 0, "", 0, 0⟩

lemma all_phaseName_iff (phases : List AthasPhase) (s : String) :
    phases.all (fun p => toLowerStr p.phaseName == s) = true ↔
      ∀ p ∈ phases, toLowerStr p.phaseName = s := by
  simp [List.all_eq_true]

lemma getAthas_length_le (cal : Calendar) (w : WireDate) :
    (getAthasMoonPhases cal w).length ≤ cal.moons.length := by
  simp only [getAthasMoonPhases]
  exact List.length_filterMap_le _ _

lemma eclipseCheckW_eq_some {cal : Calendar} {w : WireDate} {e : EclipseMatch}
    (hsome : eclipseCheckW cal w = some e) :
    e.date = w ∧
    2 ≤ (getAthasMoonPhases cal w).length ∧
    ((∀ p ∈ getAthasMoonPhases cal w, toLowerStr p.phaseName = "new moon") ∨
      (∀ p ∈ getAthasMoonPhases cal w, toLowerStr p.phaseName = "full moon")) ∧
    (e.type = "Darkest" ↔
      ∀ p ∈ getAthasMoonPhases cal w, toLowerStr p.phaseName = "new moon") ∧
    (e.type = "Brightest" ↔
      ∀ p ∈ getAthasMoonPhases cal w, toLowerStr p.phaseName = "full moon") := by
  simp only [eclipseCheckW] at hsome
  set phases := getAthasMoonPhases cal w with hph
  by_cases h2 : phases.length < 2
  · rw [if_pos h2] at hsome
    exact absurd hsome (by simp)
  rw [if_neg h2] at hsome
  have hlen : 2 ≤ phases.length := by omega
  have hpmem : phases.getD 0 dummyAthasPhase ∈ phases := by
    rw [List.getD_eq_getElem _ _ (by omega)]
    exact List.getElem_mem (by omega)
  by_cases hBF : phases.all (fun p => toLowerStr p.phaseName == "full moon") = true
  · rw [show (phases.all (fun p => toLowerStr p.phaseName == "new moon") ||
        phases.all (fun p => toLowerStr p.phaseName == "full moon")) = true by
          rw [hBF, Bool.or_true], if_pos rfl] at hsome
    have hallF : ∀ p ∈ phases, toLowerStr p.phaseName = "full moon" :=
      (all_phaseName_iff phases "full moon").mp hBF
    have hnotN : ¬∀ p ∈ phases, toLowerStr p.phaseName = "new moon" := by
      intro hallN
      have h1 := hallF _ hpmem
      have h2 := hallN _ hpmem
      rw [h1] at h2
      exact absurd h2 (by decide)
    obtain rfl : (⟨w, if phases.all (fun p => toLowerStr p.phaseName == "full moon")
        then "Brightest" else "Darkest", phases⟩ : EclipseMatch) = e :=
      Option.some.inj hsome
    have htype : (⟨w, if phases.all (fun p => toLowerStr p.phaseName == "full moon")
        then "Brightest" else "Darkest", phases⟩ : EclipseMatch).type = "Brightest" := by
      simp [hBF]
    rw [htype]
    exact ⟨rfl, hlen, Or.inr hallF, iff_of_false (by decide) hnotN,
      iff_of_true rfl hallF⟩
  · by_cases hBN : phases.all (fun p => toLowerStr p.phaseName == "new moon") = true
    · rw [show (phases.all (fun p => toLowerStr p.phaseName == "new moon") ||
          phases.all (fun p => toLowerStr p.phaseName == "full moon")) = true by
            rw [hBN, Bool.true_or], if_pos rfl] at hsome
      have hallN : ∀ p ∈ phases, toLowerStr p.phaseName = "new moon" :=
        (all_phaseName_iff phases "new moon").mp hBN
      have hnotF : ¬∀ p ∈ phases, toLowerStr p.phaseName = "full moon" := by
        intro hallF
        have h1 := hallF _ hpmem
        have h2 := hallN _ hpmem
        rw [h1] at h2
        exact absurd h2 (by decide)
      obtain rfl : (⟨w, if phases.all (fun p => toLowerStr p.phaseName == "full moon")
          then "Brightest" else "Darkest", phases⟩ : EclipseMatch) = e :=
        Option.some.inj hsome
      rw [Bool.not_eq_true] at hBF
      have htype : (⟨w, if phases.all (fun p => toLowerStr p.phaseName == "full moon")
          then "Brightest" else "Darkest", phases⟩ : EclipseMatch).type = "Darkest" := by
        simp [hBF]
      rw [htype]
      exact ⟨rfl, hlen, Or.inl hallN, iff_of_true rfl hallN,
        iff_of_false (by decide) hnotF⟩
    · rw [show (phases.all (fun p => toLowerStr p.phaseName == "new moon") ||
          phases.all (fun p => toLowerStr p.phaseName == "full moon")) = false by
            rw [Bool.not_eq_true] at hBF hBN
            rw [hBF, hBN, Bool.or_false], if_neg (by simp)] at hsome
      exact absurd hsome (by simp)

lemma eclipseCheckW_produces {cal : Calendar} {w : WireDate}
    (hlen : 2 ≤ (getAthasMoonPhases cal w).length)
    (hall : (∀ p ∈ getAthasMoonPhases cal w, toLowerStr p.phaseName = "new moon") ∨
      (∀ p ∈ getAthasMoonPhases cal w, toLowerStr p.phaseName = "full moon")) :
    ∃ e, eclipseCheckW cal w = some e := by
  simp only [eclipseCheckW]
  rw [if_neg (by omega)]
  have hor : ((getAthasMoonPhases cal w).all (fun p => toLowerStr p.phaseName == "new moon") ||
      (getAthasMoonPhases cal w).all (fun p => toLowerStr p.phaseName == "full moon")) = true := by
    rcases hall with h | h
    · rw [(all_phaseName_iff _ "new moon").mpr h, Bool.true_or]
    · rw [(all_phaseName_iff _ "full moon").mpr h, Bool.or_true]
  rw [if_pos hor]
  exact ⟨_, rfl⟩

/-- C4: a scanned day is reported by the eclipse range scan exactly when
its phase-record list (one record per moon with a positive cycle) has at
least two entries and every record's fraction-model phase name is
"New Moon" or every one is "Full Moon"; the reported category is
"Darkest" for all-new and "Brightest" for all-full; a calendar with fewer
than two moons never produces a match. -/
theorem eclipseScanSpec (cal : Calendar) (fromD toD : WireDate) (abs : Int)
    (h : abs ∈ scanDays cal fromD toD) :
    ((∃ e ∈ scanEclipsesRange cal fromD toD, e.date = wireOfAbs cal abs) ↔
      (2 ≤ (athasPhasesAt cal abs).length ∧
        ((∀ p ∈ athasPhasesAt cal abs, toLowerStr p.phaseName = "new moon") ∨
          (∀ p ∈ athasPhasesAt cal abs, toLowerStr p.phaseName = "full moon")))) ∧
    (∀ e ∈ scanEclipsesRange cal fromD toD, e.date = wireOfAbs cal abs →
      ((e.type = "Darkest" ↔
          ∀ p ∈ athasPhasesAt cal abs, toLowerStr p.phaseName = "new moon") ∧
        (e.type = "Brightest" ↔
          ∀ p ∈ athasPhasesAt cal abs, toLowerStr p.phaseName = "full moon"))) ∧
    (cal.moons.length < 2 → scanEclipsesRange cal fromD toD = []) := by
  have hphat : athasPhasesAt cal abs = getAthasMoonPhases cal (wireOfAbs cal abs) := rfl
  refine ⟨⟨?_, ?_⟩, ?_, ?_⟩
  · rintro ⟨e, he, hdate⟩
    obtain ⟨a2, _, hsome⟩ := List.mem_filterMap.mp he
    obtain ⟨hd2, hlen2, hall2, _, _⟩ := eclipseCheckW_eq_some hsome
    have hw : wireOfAbs cal a2 = wireOfAbs cal abs := by rw [← hd2, hdate]
    rw [hw] at hlen2 hall2
    rw [hphat]
    exact ⟨hlen2, hall2⟩
  · rintro ⟨hlen, hall⟩
    rw [hphat] at hlen hall
    obtain ⟨e, hsome⟩ := eclipseCheckW_produces hlen hall
    refine ⟨e, List.mem_filterMap.mpr ⟨abs, h, hsome⟩, ?_⟩
    exact (eclipseCheckW_eq_some hsome).1
  · intro e he hdate
    obtain ⟨a2, _, hsome⟩ := List.mem_filterMap.mp he
    obtain ⟨hd2, _, _, hiffD, hiffB⟩ := eclipseCheckW_eq_some hsome
    have hw : wireOfAbs cal a2 = wireOfAbs cal abs := by rw [← hd2, hdate]
    rw [hw] at hiffD hiffB
    rw [hphat]
    exact ⟨hiffD, hiffB⟩
  · intro hmoons
    unfold scanEclipsesRange
    rw [List.filterMap_eq_nil_iff]
    intro a2 _
    simp only [eclipseCheckW]
    rw [if_pos]
    calc (getAthasMoonPhases cal (wireOfAbs cal a2)).length
        ≤ cal.moons.length := getAthas_length_le cal _
      _ < 2 := hmoons

/-- Two identical 8-day moons sharing their first-new-moon reference. -/
def calE4 : Calendar :=
  ⟨[⟨"M", 8⟩], [], [],
   [⟨"Ral", 8, ⟨1, 1, 1⟩, []⟩, ⟨"Guthay", 8, ⟨1, 1, 1⟩, []⟩]⟩

/-- C4 witness: on `calE4` the day with absolute index 0 (both moons at
fraction 0, hence both "New Moon") is reported by the eclipse scan over
the first three days of year 1. -/
theorem eclipseScanSpec_witness :
    ∃ e ∈ scanEclipsesRange calE4 ⟨1, 1, 1⟩ ⟨1, 1, 3⟩, e.date = wireOfAbs calE4 0 :=
  (eclipseScanSpec calE4 ⟨1, 1, 1⟩ ⟨1, 1, 3⟩ 0 (by decide)).1.mpr
    (of_decide_eq_true (by with_unfolding_all rfl))

/-- Designated first moon of the conjunction scan:
`phases.find(p => p.name === 'Ral') || phases[0]`. -/
def ralOf (phases : List AthasPhase) : AthasPhase :=
  (phases.find? (fun p => p.name == "Ral")).getD (phases.getD 0 dummyAthasPhase)

/-- Designated second moon of the conjunction scan:
`phases.find(p => p.name === 'Guthay') || phases[1]`. -/
def guthayOf (phases : List AthasPhase) : AthasPhase :=
  (phases.find? (fun p => p.name == "Guthay")).getD (phases.getD 1 dummyAthasPhase)

/-- Cycle fraction of a record as the scanner computes it:
`(Number(age) || 0) / (Number(cycleLength) || 1)`. -/
def fracOf (p : AthasPhase) : ℚ :=
  p.age / (if p.cycleLength = 0 then 1 else p.cycleLength)

/-- Embedding of `degDiff(a, b)`: normalise both angles into `[0, 360)` and
fold differences above 180 degrees. -/
def degDiff (a b : ℚ) : ℚ :=
  let d := |safeModQ a 360 - safeModQ b 360|
  if 180 < d then 360 - d else d

/-- Match record pushed by `scanConjunctionsRange`. -/
structure ConjMatch where
  date : WireDate
  sepDeg : ℚ
  visible : Bool
  phases : List AthasPhase
deriving DecidableEq

/-- Per-day conjunction test of `scanConjunctionsRange`, as a function of
the wire date the scanner rebuilds from the absolute day. -/
def conjCheckW (cal : Calendar) (tolDeg : ℚ) (w : WireDate) : Option ConjMatch :=
  let phases := getAthasMoonPhases cal w
  if phases.length < 2 then none
  else
    let fr := fracOf (ralOf phases)
    let fg := fracOf (guthayOf phases)
    let delta := degDiff (360 * fr) (360 * fg)
    if delta ≤ tolDeg then
      some ⟨w, delta, decide ((1/4 < fr ∧ fr < 3/4) ∨ (1/4 < fg ∧ fg < 3/4)), phases⟩
    else none

/-- Embedding of `scanConjunctionsRange(fromDate, toDate, tolDeg)`. -/
def scanConjunctionsRange (cal : Calendar) (fromD toD : WireDate) (tolDeg : ℚ) :
    List ConjMatch :=
  (scanDays cal fromD toD).filterMap (fun abs => conjCheckW cal tolDeg (wireOfAbs cal abs))

/-- Embedding of the API entry `getConjunctions`, which calls the range
scanner with its default tolerance of 5 degrees. -/
def getConjunctions (cal : Calendar) (fromD toD : WireDate) : List ConjMatch :=
  scanConjunctionsRange cal fromD toD 5

/-- Angular separation as the claim words it: `min(|a-b|, 360-|a-b|)`. -/
def sepMin (a b : ℚ) : ℚ :=
  min |a - b| (360 - |a - b|)

lemma safeModQ_nonneg {v m : ℚ} (hm : 0 < m) : 0 ≤ safeModQ v m := by
  have h1 : ((⌊v / m⌋ : ℤ) : ℚ) ≤ v / m := Int.floor_le _
  have h3 : m * (v / m) = v := by field_simp
  have h2 := mul_le_mul_of_nonneg_left h1 (le_of_lt hm)
  unfold safeModQ
  nlinarith

lemma safeModQ_lt {v m : ℚ} (hm : 0 < m) : safeModQ v m < m := by
  have h1 : v / m < ((⌊v / m⌋ : ℤ) : ℚ) + 1 := Int.lt_floor_add_one _
  have h3 : m * (v / m) = v := by field_simp
  have h2 := mul_lt_mul_of_pos_left h1 hm
  unfold safeModQ
  nlinarith

lemma mem_getAthas_bounds {cal : Calendar} {w : WireDate} {p : AthasPhase}
    (hp : p ∈ getAthasMoonPhases cal w) :
    0 < p.cycleLength ∧ 0 ≤ p.age ∧ p.age < p.cycleLength := by
  simp only [getAthasMoonPhases] at hp
  obtain ⟨m, _, hrec⟩ := List.mem_filterMap.mp hp
  simp only [athasMoonRecord] at hrec
  by_cases hc : m.cycleLength ≤ 0
  · rw [if_pos hc] at hrec
    exact absurd hrec (by simp)
  · rw [if_neg hc] at hrec
    have hcpos : 0 < m.cycleLength := lt_of_not_le hc
    obtain rfl := Option.some.inj hrec
    exact ⟨hcpos, safeModQ_nonneg hcpos, safeModQ_lt hcpos⟩

lemma fracOf_bounds {cal : Calendar} {w : WireDate} {p : AthasPhase}
    (hp : p ∈ getAthasMoonPhases cal w) :
    0 ≤ fracOf p ∧ fracOf p < 1 := by
  obtain ⟨hc, ha0, ha1⟩ := mem_getAthas_bounds hp
  unfold fracOf
  rw [if_neg (ne_of_gt hc)]
  exact ⟨div_nonneg ha0 (le_of_lt hc), (div_lt_one hc).mpr ha1⟩

lemma ralOf_mem {phases : List AthasPhase} (h : 0 < phases.length) :
    ralOf phases ∈ phases := by
  unfold ralOf
  cases hf : phases.find? (fun p => p.name == "Ral") with
  | some p =>
    simp only [Option.getD_some]
    exact List.mem_of_find?_eq_some hf
  | none =>
    simp only [Option.getD_none]
    rw [List.getD_eq_getElem _ _ h]
    exact List.getElem_mem h

lemma guthayOf_mem {phases : List AthasPhase} (h : 2 ≤ phases.length) :
    guthayOf phases ∈ phases := by
  unfold guthayOf
  cases hf : phases.find? (fun p => p.name == "Guthay") with
  | some p =>
    simp only [Option.getD_some]
    exact List.mem_of_find?_eq_some hf
  | none =>
    simp only [Option.getD_none]
    rw [List.getD_eq_getElem _ _ (by omega)]
    exact List.getElem_mem (by omega)

lemma normDeg_eq_self {x : ℚ} (h0 : 0 ≤ x) (h1 : x < 360) : safeModQ x 360 = x := by
  have hfl : ⌊x / 360⌋ = 0 := by
    rw [Int.floor_eq_zero_iff]
    constructor
    · positivity
    · rw [div_lt_one (by norm_num : (0:ℚ) < 360)] at *
      simpa using h1
  unfold safeModQ
  rw [hfl]
  simp

lemma degDiff_eq_sepMin {fa fb : ℚ} (ha0 : 0 ≤ fa) (ha1 : fa < 1)
    (hb0 : 0 ≤ fb) (hb1 : fb < 1) :
    degDiff (360 * fa) (360 * fb) = sepMin (360 * fa) (360 * fb) := by
  unfold degDiff sepMin
  rw [normDeg_eq_self (by positivity) (by nlinarith),
    normDeg_eq_self (by positivity) (by nlinarith)]
  set d := |360 * fa - 360 * fb| with hd
  have hd0 : 0 ≤ d := abs_nonneg _
  have hdlt : d < 360 := by
    rw [hd, abs_sub_lt_iff]
    constructor <;> nlinarith
  by_cases h : 180 < d
  · rw [if_pos h, min_eq_right (by linarith)]
  · rw [if_neg h, min_eq_left (by linarith)]

lemma conjCheckW_eq_some {cal : Calendar} {tol : ℚ} {w : WireDate} {e : ConjMatch}
    (hsome : conjCheckW cal tol w = some e) :
    e.date = w ∧
    2 ≤ (getAthasMoonPhases cal w).length ∧
    e.sepDeg = degDiff (360 * fracOf (ralOf (getAthasMoonPhases cal w)))
      (360 * fracOf (guthayOf (getAthasMoonPhases cal w))) ∧
    degDiff (360 * fracOf (ralOf (getAthasMoonPhases cal w)))
      (360 * fracOf (guthayOf (getAthasMoonPhases cal w))) ≤ tol ∧
    (e.visible = true ↔
      ((1/4 < fracOf (ralOf (getAthasMoonPhases cal w)) ∧
          fracOf (ralOf (getAthasMoonPhases cal w)) < 3/4) ∨
        (1/4 < fracOf (guthayOf (getAthasMoonPhases cal w)) ∧
          fracOf (guthayOf (getAthasMoonPhases cal w)) < 3/4))) := by
  simp only [conjCheckW] at hsome
  set phases := getAthasMoonPhases cal w with hph
  by_cases h2 : phases.length < 2
  · rw [if_pos h2] at hsome
    exact absurd hsome (by simp)
  rw [if_neg h2] at hsome
  by_cases hsep : degDiff (360 * fracOf (ralOf phases)) (360 * fracOf (guthayOf phases)) ≤ tol
  · rw [if_pos hsep] at hsome
    obtain rfl := Option.some.inj hsome
    exact ⟨rfl, by omega, rfl, hsep, decide_eq_true_iff⟩
  · rw [if_neg hsep] at hsome
    exact absurd hsome (by simp)

lemma conjCheckW_produces {cal : Calendar} {tol : ℚ} {w : WireDate}
    (hlen : 2 ≤ (getAthasMoonPhases cal w).length)
    (hsep : degDiff (360 * fracOf (ralOf (getAthasMoonPhases cal w)))
      (360 * fracOf (guthayOf (getAthasMoonPhases cal w))) ≤ tol) :
    ∃ e, conjCheckW cal tol w = some e := by
  simp only [conjCheckW]
  rw [if_neg (by omega), if_pos hsep]
  exact ⟨_, rfl⟩

/-- C7: on a scanned day with at least two phase records, the default
conjunction scan reports the day exactly when the angular separation
`min(|a-b|, 360-|a-b|)` of the two designated moons (`Ral` by name or the
first record, `Guthay` by name or the second record, angle `360 * frac`)
is at most 5 degrees, boundary inclusive; the reported `sepDeg` equals
that separation, and `visible` holds exactly when either moon's fraction
lies strictly inside (1/4, 3/4). -/
theorem conjunctionScanSpec (cal : Calendar) (fromD toD : WireDate) (abs : Int)
    (h : abs ∈ scanDays cal fromD toD)
    (hlen : 2 ≤ (athasPhasesAt cal abs).length) :
    ((∃ e ∈ getConjunctions cal fromD toD, e.date = wireOfAbs cal abs) ↔
      sepMin (360 * fracOf (ralOf (athasPhasesAt cal abs)))
        (360 * fracOf (guthayOf (athasPhasesAt cal abs))) ≤ 5) ∧
    (∀ e ∈ getConjunctions cal fromD toD, e.date = wireOfAbs cal abs →
      e.sepDeg = sepMin (360 * fracOf (ralOf (athasPhasesAt cal abs)))
        (360 * fracOf (guthayOf (athasPhasesAt cal abs))) ∧
      (e.visible = true ↔
        ((1/4 < fracOf (ralOf (athasPhasesAt cal abs)) ∧
            fracOf (ralOf (athasPhasesAt cal abs)) < 3/4) ∨
          (1/4 < fracOf (guthayOf (athasPhasesAt cal abs)) ∧
            fracOf (guthayOf (athasPhasesAt cal abs)) < 3/4)))) := by
  have hphat : athasPhasesAt cal abs = getAthasMoonPhases cal (wireOfAbs cal abs) := rfl
  have hra := @fracOf_bounds cal (wireOfAbs cal abs) _
    (@ralOf_mem (athasPhasesAt cal abs) (by omega))
  have hgu := @fracOf_bounds cal (wireOfAbs cal abs) _
    (@guthayOf_mem (athasPhasesAt cal abs) hlen)
  have hdd : degDiff (360 * fracOf (ralOf (athasPhasesAt cal abs)))
      (360 * fracOf (guthayOf (athasPhasesAt cal abs))) =
      sepMin (360 * fracOf (ralOf (athasPhasesAt cal abs)))
        (360 * fracOf (guthayOf (athasPhasesAt cal abs))) :=
    degDiff_eq_sepMin hra.1 hra.2 hgu.1 hgu.2
  constructor
  · constructor
    · rintro ⟨e, he, hdate⟩
      obtain ⟨a2, _, hsome⟩ := List.mem_filterMap.mp he
      obtain ⟨hd2, _, _, hsep2, _⟩ := conjCheckW_eq_some hsome
      have hw : wireOfAbs cal a2 = wireOfAbs cal abs := by rw [← hd2, hdate]
      rw [hw] at hsep2
      rw [← hphat] at hsep2
      rwa [hdd] at hsep2
    · intro hsep
      rw [← hdd, hphat] at hsep
      obtain ⟨e, hsome⟩ := conjCheckW_produces (hphat ▸ hlen) hsep
      refine ⟨e, List.mem_filterMap.mpr ⟨abs, h, hsome⟩, (conjCheckW_eq_some hsome).1⟩
  · intro e he hdate
    obtain ⟨a2, _, hsome⟩ := List.mem_filterMap.mp he
    obtain ⟨hd2, _, hsepeq, _, hvis⟩ := conjCheckW_eq_some hsome
    have hw : wireOfAbs cal a2 = wireOfAbs cal abs := by rw [← hd2, hdate]
    rw [hw] at hsepeq hvis
    rw [← hphat] at hsepeq hvis
    rw [hdd] at hsepeq
    exact ⟨hsepeq, hvis⟩

/-- Calendar whose two 72-day moons are anchored one day apart, so their
angular separation is exactly 5 degrees one day after the second anchor. -/
def calC7 : Calendar :=
  ⟨[⟨"M", 100⟩], [], [],
   [⟨"Ral", 72, ⟨1, 1, 2⟩, []⟩, ⟨"Guthay", 72, ⟨1, 1, 1⟩, []⟩]⟩

/-- C7 witness: on `calC7`, absolute day 1 has fractions 0 and 1/72, a
separation of exactly 5 degrees, and is reported by the default scan
(boundary inclusive). -/
theorem conjunctionScanSpec_witness :
    ∃ e ∈ getConjunctions calC7 ⟨1, 1, 1⟩ ⟨1, 1, 3⟩, e.date = wireOfAbs calC7 1 :=
  (conjunctionScanSpec calC7 ⟨1, 1, 1⟩ ⟨1, 1, 3⟩ 1 (by decide)
      (of_decide_eq_true (by with_unfolding_all rfl))).1.mpr
    (of_decide_eq_true (by with_unfolding_all rfl))

/-- The per-season test of `getSeasonName`:
`s.startMonth <= s.endMonth ? (m1 >= s.startMonth && m1 <= s.endMonth)
: (m1 >= s.startMonth || m1 <= s.endMonth)`. -/
def seasonMatchesB (s : Season) (m1 : Int) : Bool :=
  if s.startMonth ≤ s.endMonth then
    decide (s.startMonth ≤ m1) && decide (m1 ≤ s.endMonth)
  else
    decide (s.startMonth ≤ m1) || decide (m1 ≤ s.endMonth)

/-- The `for (const s of seasons)` loop of `getSeasonName`: name of the
first season passing the test, null when none does. -/
def seasonLoop (m1 : Int) : List Season → Option String
  | [] => none
  | s :: rest => if seasonMatchesB s m1 then some s.name else seasonLoop m1 rest

/-- Embedding of `getSeasonName(calendar, monthIndex)` (`m1 = monthIndex + 1`). -/
def getSeasonName (cal : Calendar) (monthIndex : Int) : Option String :=
  seasonLoop (monthIndex + 1) cal.seasons

/-- Containment of a 1-based month in a season's inclusive range as the
claim words it: an ordinary range when `startMonth ≤ endMonth`, a
year-wrapping range (OR of the two inclusive comparisons) otherwise. -/
def containsMonth (s : Season) (m : Int) : Prop :=
  (s.startMonth ≤ s.endMonth ∧ s.startMonth ≤ m ∧ m ≤ s.endMonth) ∨
  (s.endMonth < s.startMonth ∧ (s.startMonth ≤ m ∨ m ≤ s.endMonth))

instance (s : Season) (m : Int) : Decidable (containsMonth s m) := by
  unfold containsMonth
  infer_instance

lemma seasonMatchesB_iff (s : Season) (m1 : Int) :
    seasonMatchesB s m1 = true ↔ containsMonth s m1 := by
  unfold seasonMatchesB containsMonth
  by_cases h : s.startMonth ≤ s.endMonth
  · rw [if_pos h]
    simp [h, not_lt.mpr h]
  · rw [if_neg h]
    simp [h, not_le.mp h]

lemma seasonLoop_none_iff (m1 : Int) :
    ∀ l : List Season, (seasonLoop m1 l = none ↔ ∀ s ∈ l, ¬containsMonth s m1) := by
  intro l
  induction l with
  | nil => simp [seasonLoop]
  | cons s rest ih =>
    by_cases hb : seasonMatchesB s m1 = true
    · rw [seasonLoop, if_pos hb]
      refine iff_of_false (by simp) ?_
      intro hall
      exact hall s (by simp) ((seasonMatchesB_iff s m1).mp hb)
    · rw [seasonLoop, if_neg hb]
      rw [ih]
      constructor
      · intro hall t ht
        rcases List.mem_cons.mp ht with rfl | ht2
        · rw [← seasonMatchesB_iff]
          simpa using hb
        · exact hall t ht2
      · intro hall t ht
        exact hall t (List.mem_cons_of_mem s ht)

lemma seasonLoop_first (m1 : Int) :
    ∀ (pre : List Season) (s : Season) (post : List Season),
      (∀ t ∈ pre, ¬containsMonth t m1) → containsMonth s m1 →
      seasonLoop m1 (pre ++ s :: post) = some s.name := by
  intro pre
  induction pre with
  | nil =>
    intro s post _ hs
    rw [List.nil_append, seasonLoop, if_pos ((seasonMatchesB_iff s m1).mpr hs)]
  | cons t rest ih =>
    intro s post hpre hs
    have hnt : ¬containsMonth t m1 := hpre t (by simp)
    have hb : ¬seasonMatchesB t m1 = true := fun hb =>
      hnt ((seasonMatchesB_iff t m1).mp hb)
    rw [List.cons_append, seasonLoop, if_neg hb]
    exact ih s post (fun u hu => hpre u (List.mem_cons_of_mem t hu)) hs

/-- Twelve-month calendar with the single wrapping season `{11, 2}`. -/
def calS8 : Calendar := ⟨List.replicate 12 ⟨"M", 30⟩, [], [⟨"Wrap", 11, 2⟩], []⟩

/-- C8: the season resolver returns null exactly when no configured season
contains the 1-based month, returns the name of the first season whose
range contains it (with `startMonth > endMonth` treated as a wrapping
range checked with OR), and on the concrete wrapping season `{11, 2}` of a
12-month calendar it matches months 11, 12, 1, 2 and no others. -/
theorem seasonResolverSpec (cal : Calendar) (monthIndex : Int) :
    (getSeasonName cal monthIndex = none ↔
      ∀ s ∈ cal.seasons, ¬containsMonth s (monthIndex + 1)) ∧
    (∀ (pre : List Season) (s : Season) (post : List Season),
      cal.seasons = pre ++ s :: post →
      (∀ t ∈ pre, ¬containsMonth t (monthIndex + 1)) →
      containsMonth s (monthIndex + 1) →
      getSeasonName cal monthIndex = some s.name) ∧
    (∀ m1 ∈ Finset.Icc (1 : Int) 12,
      (getSeasonName calS8 (m1 - 1) = some "Wrap" ↔
        (m1 = 11 ∨ m1 = 12 ∨ m1 = 1 ∨ m1 = 2))) := by
  refine ⟨seasonLoop_none_iff (monthIndex + 1) cal.seasons, ?_, by decide⟩
  intro pre s post hsplit hpre hs
  unfold getSeasonName
  rw [hsplit]
  exact seasonLoop_first (monthIndex + 1) pre s post hpre hs

/-- C8 witness: on `calS8` (wrapping season 11..2), month index 10
(1-based month 11) resolves to the season and month index 5 (1-based
month 6) resolves to nothing. -/
theorem seasonResolverSpec_witness :
    getSeasonName calS8 (11 - 1) = some "Wrap" ∧ getSeasonName calS8 (6 - 1) = none :=
  ⟨((seasonResolverSpec calS8 0).2.2 11 (by decide)).mpr (by decide),
   ((seasonResolverSpec calS8 5).1).mpr (by decide)⟩

end SSAthas
